import Mathlib

/-!
Shallow embedding of the baseline scheduler of
`src/data/benchmark/generate_baseline_schedules.py` together with the parts of
its data model (`Bin`, `JobHelper`, `JobResultInfo` from `data/benchmark/types.py`)
and the makespan evaluator it delegates to.  Machine integers are modelled as
`Int`/`Nat`, floats as `ℚ`, Python `assert` as `Option` failure.
-/

/-- A quantum circuit, reduced to the only field the scheduler reads. -/
structure Circuit where
  num_qubits : Nat
deriving DecidableEq

/-- Modelled from the spec: `JobHelper` lives in `data/benchmark/types.py`, which is
not among the sources.  Per §3 it is a job descriptor: an identifier string and the
underlying circuit instance (possibly absent).  The Python field `instance` is a
Lean keyword and is rendered `inst`. -/
structure JobHelper where
  name : String
  inst : Option Circuit
deriving DecidableEq

/-- Modelled from the spec: `Bin` lives in `data/benchmark/types.py`, which is not
among the sources.  Per §3 a bin is (generation index, remaining capacity, machine
position, ordered list of assigned jobs, full flag); `jobs` defaults to empty and
`full` to false, matching the constructor calls in the source. -/
structure Bin where
  index : Nat
  capacity : Int
  qpu : Nat
  jobs : List JobHelper := []
  full : Bool := false
deriving DecidableEq

instance : Inhabited Bin := ⟨⟨0, 0, 0, [], false⟩⟩

/-- Modelled from the spec: `JobResultInfo` lives in `data/benchmark/types.py`.
Per §3 a scheduled job record is (job identifier, machine identifier, start time =
generation index, completion time, initially the sentinel −1). -/
structure JobResultInfo where
  name : String
  machine : String
  start_time : Nat
  completion_time : ℚ
deriving DecidableEq

/-- The qubit count the packer reads off a job (`job.instance.num_qubits`); call
sites guard `job.instance is None` first, so the `none` branch is never read. -/
def jobQubits (job : JobHelper) : Nat :=
  (job.inst.map Circuit.num_qubits).getD 0

/-- `find_fitting_bin`: first index (in iteration order) of a bin whose remaining
capacity is at least the job's qubit requirement, `none` if there is none. -/
def find_fitting_bin (job : JobHelper) : List Bin → Option Nat
  | [] => none
  | b :: bs =>
    if (jobQubits job : Int) ≤ b.capacity then some 0
    else (find_fitting_bin job bs).map (· + 1)

/-- One fresh bin per machine capacity, tagged with the machine's position
(`for idx, qpu in enumerate(accelerators.values())`). -/
def freshBinsAux (index : Nat) : Nat → List Int → List Bin
  | _, [] => []
  | q, cap :: caps => ⟨index, cap, q, [], false⟩ :: freshBinsAux index (q + 1) caps

/-- The bins `[Bin(index=index, capacity=qpu, qpu=idx) for idx, qpu in
enumerate(accelerators.values())]`. -/
def freshBins (accelerators : List (String × Int)) (index : Nat) : List Bin :=
  freshBinsAux index 0 (accelerators.map Prod.snd)

/-- Mutable state of the packing loop: open bins, closed bins, next generation. -/
structure PackState where
  open_bins : List Bin
  closed_bins : List Bin
  index : Nat
deriving DecidableEq

/-- Assign the job to the bin at position `idx` of `obins` (append to its job
list, subtract its requirement); if the bin's capacity reaches zero, mark it
full, append it to the closed list and delete it from the open list. -/
def placeJob (job : JobHelper) (closed : List Bin) (obins : List Bin)
    (idx newIndex : Nat) : PackState :=
  let selected := obins.getD idx default
  let placed : Bin := { selected with
    jobs := selected.jobs ++ [job],
    capacity := selected.capacity - (jobQubits job : Int) }
  if placed.capacity = 0 then
    { open_bins := obins.eraseIdx idx,
      closed_bins := closed ++ [{ placed with full := true }],
      index := newIndex }
  else
    { open_bins := obins.set idx placed,
      closed_bins := closed,
      index := newIndex }

/-- One iteration of the packing loop: skip jobs without an instance; first-fit
into the open bins; otherwise open a fresh generation of bins and retry among
those, the `assert` on failure modelled as `none`. -/
def packStep (accelerators : List (String × Int)) (st : PackState)
    (job : JobHelper) : Option PackState :=
  if job.inst.isNone then some st
  else
    match find_fitting_bin job st.open_bins with
    | some bin_idx => some (placeJob job st.closed_bins st.open_bins bin_idx st.index)
    | none =>
      let new_bins := freshBins accelerators st.index
      match find_fitting_bin job new_bins with
      | none => none
      | some i =>
        some (placeJob job st.closed_bins (st.open_bins ++ new_bins)
          (i + st.open_bins.length) (st.index + 1))

/-- `new_jobs = [JobHelper(str(idx + 1), job) for idx, job in enumerate(jobs)]`. -/
def helpersOf (jobs : List (Option Circuit)) : List JobHelper :=
  jobs.enum.map (fun p => ⟨toString (p.1 + 1), p.2⟩)

/-- Initial loop state: one generation-0 bin per machine, no closed bins,
next generation index 1. -/
def initState (accelerators : List (String × Int)) : PackState :=
  ⟨freshBins accelerators 0, [], 1⟩

/-- The packing loop over an explicit helper list. -/
def packJobs (accelerators : List (String × Int)) (helpers : List JobHelper) :
    Option PackState :=
  helpers.foldlM (packStep accelerators) (initState accelerators)

/-- The packing loop of `generate_baseline_schedule` on the raw job list. -/
def pack (accelerators : List (String × Int)) (jobs : List (Option Circuit)) :
    Option PackState :=
  packJobs accelerators (helpersOf jobs)

/-- After the loop, every open bin with at least one job is appended to the
closed list. -/
def closeRemaining (st : PackState) : List Bin :=
  st.closed_bins ++ st.open_bins.filter (fun b => decide (0 < b.jobs.length))

/-- Ordering of bins by generation index, used for the final stable sort. -/
def binLE (a b : Bin) : Prop := a.index ≤ b.index

instance : DecidableRel binLE := fun a b => Nat.decLe a.index b.index

instance : IsTotal Bin binLE := ⟨fun a b => Nat.le_total a.index b.index⟩

instance : IsTrans Bin binLE := ⟨fun _ _ _ h h2 => Nat.le_trans h h2⟩

/-- `sorted(closed_bins, key=lambda x: x.index)`: Python's sort is stable, and a
stable sort is extensionally unique, so insertion sort realises it. -/
def sortBinsByIndex (l : List Bin) : List Bin :=
  List.insertionSort binLE l

/-- The closed bins the run emits, in their final (sorted) order. -/
def emittedBins (accelerators : List (String × Int))
    (jobs : List (Option Circuit)) : Option (List Bin) :=
  (pack accelerators jobs).map (fun st => sortBinsByIndex (closeRemaining st))

/-- Build the combined job records from the sorted bins:
`JobResultInfo(name, machine=list(accelerators.keys())[bin.qpu],
start_time=bin.index, completion_time=-1.0)`. -/
def combinedJobsOf (accelerators : List (String × Int)) (bins : List Bin) :
    List JobResultInfo :=
  bins.flatMap (fun b => b.jobs.map (fun job =>
    ⟨job.name, (accelerators.map Prod.fst).getD b.qpu "", b.index, -1⟩))

/-- `lp_jobs = ["0"] + [str(idx + 1) for idx, _ in enumerate(base_jobs)]`. -/
def lpJobsNames (n : Nat) : List String :=
  "0" :: (List.range n).map (fun idx => toString (idx + 1))

/-- Modelled from the pulp library: `pulp.makeDict([rows, cols], array, 0)` builds
a two-level dictionary from the positional array, returning the default `0` for
any key the array does not cover. -/
def makeDict2 (rows cols : List String) (array : List (List ℚ)) (dflt : ℚ)
    (r c : String) : ℚ :=
  match rows.indexOf? r, cols.indexOf? c with
  | some i, some j => (array.getD i []).getD j dflt
  | _, _ => dflt

/-- Modelled from the pulp library: the three-level analogue of `makeDict2`. -/
def makeDict3 (rows1 rows2 cols : List String) (array : List (List (List ℚ)))
    (dflt : ℚ) (a b c : String) : ℚ :=
  match rows1.indexOf? a, rows2.indexOf? b, cols.indexOf? c with
  | some i, some j, some k => ((array.getD i []).getD j []).getD k dflt
  | _, _, _ => dflt

/-- The names of the jobs assigned to machine `m`, in record order. -/
def machineSequence (jobs : List JobResultInfo) (m : String) : List String :=
  (jobs.filter (fun j => j.machine == m)).map (fun j => j.name)

/-- Modelled from the spec (§4.2): finish time of the last job on machine `m` —
each job's finish time is its predecessor's finish time (synthetic predecessor
"0" at time 0) plus the setup time for (predecessor, job, machine) plus the
processing time for (job, machine). -/
def machineFinishTime (jobs : List JobResultInfo)
    (p_times : String → String → ℚ) (s_times : String → String → String → ℚ)
    (m : String) : ℚ :=
  ((machineSequence jobs m).foldl
    (fun acc j => (j, acc.2 + s_times acc.1 j m + p_times j m)) ("0", 0)).2

/-- Modelled from the spec: `calculate_makespan` lives in
`data/benchmark/generate_milp_schedules.py`, which is not among the sources.
Per §4.2 it is the maximum, over all machines of the schedule, of that
machine's last finish time, with zero for an empty schedule. -/
def calculate_makespan (jobs : List JobResultInfo)
    (p_times : String → String → ℚ) (s_times : String → String → String → ℚ) : ℚ :=
  (((jobs.map (fun j => j.machine)).dedup).map
    (machineFinishTime jobs p_times s_times)).foldl max 0

/-- `_calculate_result_from_baseline`: build the two cost dictionaries with
default 0 and score the records; the records are returned unchanged. -/
def calculate_result_from_baseline (jobs : List JobResultInfo)
    (process_times : List (List ℚ)) (setup_times : List (List (List ℚ)))
    (base_jobs_len : Nat) (accelerators : List (String × Int)) :
    ℚ × List JobResultInfo :=
  let lp_jobs := lpJobsNames base_jobs_len
  let machines := accelerators.map Prod.fst
  let p_times := makeDict2 lp_jobs.tail machines process_times 0
  let s_times := makeDict3 lp_jobs lp_jobs machines setup_times 0
  (calculate_makespan jobs p_times s_times, jobs)

/-- `generate_baseline_schedule`: pack, emit the records in sorted-bin order and
score them; `none` models the fatal `assert` of the packing loop. -/
def generate_baseline_schedule (jobs : List (Option Circuit))
    (accelerators : List (String × Int)) (process_times : List (List ℚ))
    (setup_times : List (List (List ℚ))) : Option (ℚ × List JobResultInfo) :=
  (emittedBins accelerators jobs).map (fun bins =>
    calculate_result_from_baseline (combinedJobsOf accelerators bins)
      process_times setup_times jobs.length accelerators)

/-- Nominal capacity of the machine at position `q` of the mapping. -/
def nominalCap (accelerators : List (String × Int)) (q : Nat) : Int :=
  (accelerators.map Prod.snd).getD q 0

/-- Total qubit requirement of the jobs assigned to a bin. -/
def binLoad (b : Bin) : Nat :=
  (b.jobs.map jobQubits).sum

/-- All jobs currently held by a list of bins. -/
def binsJobs (l : List Bin) : List JobHelper :=
  l.flatMap Bin.jobs

/-! Helper lemmas about the searching and bin-creation primitives. -/

theorem ffb_none_spec (job : JobHelper) :
    ∀ bins, find_fitting_bin job bins = none →
      ∀ b ∈ bins, b.capacity < (jobQubits job : Int) := by
  intro bins
  induction bins with
  | nil => intro _ b hb; cases hb
  | cons hd tl ih =>
    intro h b hb
    unfold find_fitting_bin at h
    by_cases hfit : (jobQubits job : Int) ≤ hd.capacity
    · simp [hfit] at h
    · simp [hfit] at h
      rw [List.mem_cons] at hb
      rcases hb with rfl | hb
      · omega
      · exact ih h b hb

theorem ffb_some_spec (job : JobHelper) :
    ∀ bins i, find_fitting_bin job bins = some i →
      i < bins.length ∧ (jobQubits job : Int) ≤ (bins.getD i default).capacity := by
  intro bins
  induction bins with
  | nil => intro i h; cases h
  | cons hd tl ih =>
    intro i h
    unfold find_fitting_bin at h
    by_cases hfit : (jobQubits job : Int) ≤ hd.capacity
    · simp [hfit] at h
      subst h
      simpa using hfit
    · simp [hfit] at h
      rcases h with ⟨j, hj, rfl⟩
      rcases ih j hj with ⟨h1, h2⟩
      refine ⟨by simpa using h1, ?_⟩
      simpa using h2

theorem ffb_congr (job : JobHelper) :
    ∀ l1 l2 : List Bin, l1.map Bin.capacity = l2.map Bin.capacity →
      find_fitting_bin job l1 = find_fitting_bin job l2 := by
  intro l1
  induction l1 with
  | nil => intro l2 h; cases l2 <;> simp_all [find_fitting_bin]
  | cons hd tl ih =>
    intro l2 h
    cases l2 with
    | nil => simp at h
    | cons hd2 tl2 =>
      simp at h
      rcases h with ⟨hcap, htl⟩
      unfold find_fitting_bin
      rw [hcap, ih tl2 htl]

theorem freshBinsAux_mem (index : Nat) :
    ∀ (caps : List Int) (q : Nat) (b : Bin), b ∈ freshBinsAux index q caps →
      b.index = index ∧ b.jobs = [] ∧ b.full = false ∧ q ≤ b.qpu ∧
        b.qpu < q + caps.length ∧ b.capacity = caps.getD (b.qpu - q) 0 := by
  intro caps
  induction caps with
  | nil => intro q b hb; cases hb
  | cons c cs ih =>
    intro q b hb
    unfold freshBinsAux at hb
    rw [List.mem_cons] at hb
    rcases hb with rfl | hb
    · simp
    · rcases ih (q + 1) b hb with ⟨h1, h2, h3, h4, h5, h6⟩
      refine ⟨h1, h2, h3, by omega, by simp; omega, ?_⟩
      rw [h6]
      have hq : b.qpu - q = (b.qpu - (q + 1)) + 1 := by omega
      rw [hq]
      simp

theorem freshBins_mem (accelerators : List (String × Int)) (index : Nat) (b : Bin)
    (hb : b ∈ freshBins accelerators index) :
    b.index = index ∧ b.jobs = [] ∧ b.full = false ∧
      b.qpu < accelerators.length ∧ b.capacity = nominalCap accelerators b.qpu := by
  rcases freshBinsAux_mem index (accelerators.map Prod.snd) 0 b hb with
    ⟨h1, h2, h3, _, h5, h6⟩
  refine ⟨h1, h2, h3, by simpa using h5, ?_⟩
  rw [h6, nominalCap]
  simp

theorem freshBinsAux_capacities (index : Nat) :
    ∀ (caps : List Int) (q : Nat),
      (freshBinsAux index q caps).map Bin.capacity = caps := by
  intro caps
  induction caps with
  | nil => intro q; rfl
  | cons c cs ih => intro q; simp [freshBinsAux, ih]

theorem ffb_freshBins_congr (job : JobHelper) (accelerators : List (String × Int))
    (i j : Nat) :
    find_fitting_bin job (freshBins accelerators i) =
      find_fitting_bin job (freshBins accelerators j) := by
  apply ffb_congr
  rw [freshBins, freshBins, freshBinsAux_capacities, freshBinsAux_capacities]

theorem list_split_at {α : Type} (d : α) :
    ∀ (l : List α) (i : Nat), i < l.length →
      ∃ l1 b l2, l = l1 ++ b :: l2 ∧ l1.length = i ∧ l.getD i d = b ∧
        (∀ x, l.set i x = l1 ++ x :: l2) ∧ l.eraseIdx i = l1 ++ l2 := by
  intro l
  induction l with
  | nil => intro i h; simp at h
  | cons hd tl ih =>
    intro i h
    cases i with
    | zero => exact ⟨[], hd, tl, by simp⟩
    | succ j =>
      have hj : j < tl.length := by simpa using h
      rcases ih j hj with ⟨l1, b, l2, heq, hlen, hget, hset, herase⟩
      refine ⟨hd :: l1, b, l2, by simp [heq], by simpa using hlen, ?_, ?_, ?_⟩
      · simpa using hget
      · intro x
        simpa using hset x
      · simpa using herase

/-! The packing-loop invariant. -/

/-- Invariant of an open bin: its machine position is in range, its remaining
capacity accounts exactly for its load, it is not marked full, it keeps strictly
positive remaining capacity once it holds a job, and all its jobs carry an
instance. -/
def OpenBinOK (accelerators : List (String × Int)) (b : Bin) : Prop :=
  b.qpu < accelerators.length ∧
  b.capacity = nominalCap accelerators b.qpu - (binLoad b : Int) ∧
  b.full = false ∧
  (b.jobs ≠ [] → 0 < b.capacity) ∧
  (∀ j ∈ b.jobs, j.inst.isSome)

/-- Invariant of a bin closed during the loop: it is marked full, has exactly
zero remaining capacity, and holds at least one job. -/
def ClosedBinOK (accelerators : List (String × Int)) (b : Bin) : Prop :=
  b.qpu < accelerators.length ∧
  b.capacity = nominalCap accelerators b.qpu - (binLoad b : Int) ∧
  b.full = true ∧ b.capacity = 0 ∧ b.jobs ≠ [] ∧
  (∀ j ∈ b.jobs, j.inst.isSome)

/-- Invariant of the loop state. -/
def StateOK (accelerators : List (String × Int)) (st : PackState) : Prop :=
  (∀ b ∈ st.open_bins, OpenBinOK accelerators b) ∧
  (∀ b ∈ st.closed_bins, ClosedBinOK accelerators b) ∧
  (∀ b ∈ st.open_bins, b.index < st.index) ∧
  (∀ b ∈ st.closed_bins, b.index < st.index) ∧
  1 ≤ st.index

theorem binLoad_append (b : Bin) (job : JobHelper) (cap : Int) (fl : Bool) :
    binLoad ⟨b.index, cap, b.qpu, b.jobs ++ [job], fl⟩ = binLoad b + jobQubits job := by
  simp [binLoad]

theorem getD_append_right_own {α : Type} (d : α) :
    ∀ (l1 l2 : List α) (i : Nat), (l1 ++ l2).getD (i + l1.length) d = l2.getD i d := by
  intro l1
  induction l1 with
  | nil => intro l2 i; simp
  | cons hd tl ih =>
    intro l2 i
    have hstep : i + (hd :: tl).length = (i + tl.length) + 1 := by simp; omega
    rw [hstep]
    simpa using ih l2 i

theorem placeJob_ok (accelerators : List (String × Int)) (job : JobHelper)
    (closed obins : List Bin) (idx newIndex : Nat)
    (hopen : ∀ b ∈ obins, OpenBinOK accelerators b)
    (hclosed : ∀ b ∈ closed, ClosedBinOK accelerators b)
    (hoidx : ∀ b ∈ obins, b.index < newIndex)
    (hcidx : ∀ b ∈ closed, b.index < newIndex)
    (h1le : 1 ≤ newIndex)
    (hidx : idx < obins.length)
    (hfit : (jobQubits job : Int) ≤ (obins.getD idx default).capacity)
    (hjob : job.inst.isSome) :
    StateOK accelerators (placeJob job closed obins idx newIndex) := by
  rcases list_split_at default obins idx hidx with ⟨l1, b, l2, heq, hlen, hget, hset, herase⟩
  have hbmem : b ∈ obins := by rw [heq]; simp
  rcases hopen b hbmem with ⟨hqpu, hcap, hfull, _hpos, hinst⟩
  have hbidx : b.index < newIndex := hoidx b hbmem
  rw [hget] at hfit
  simp only [placeJob, hget, herase, hset]
  by_cases hzero : b.capacity - (jobQubits job : Int) = 0
  · rw [if_pos hzero]
    refine ⟨?_, ?_, ?_, ?_, h1le⟩
    · intro b2 hb2
      apply hopen
      rw [heq]
      simp at hb2 ⊢
      tauto
    · intro b2 hb2
      simp only [List.mem_append, List.mem_singleton] at hb2
      rcases hb2 with hb2 | rfl
      · exact hclosed b2 hb2
      · refine ⟨hqpu, ?_, rfl, hzero, by simp, ?_⟩
        · rw [binLoad_append]
          push_cast
          omega
        · intro j hj
          simp at hj
          rcases hj with hj | rfl
          · exact hinst j hj
          · exact hjob
    · intro b2 hb2
      apply hoidx
      rw [heq]
      simp at hb2 ⊢
      tauto
    · intro b2 hb2
      simp only [List.mem_append, List.mem_singleton] at hb2
      rcases hb2 with hb2 | rfl
      · exact hcidx b2 hb2
      · exact hbidx
  · rw [if_neg hzero]
    refine ⟨?_, hclosed, ?_, hcidx, h1le⟩
    · intro b2 hb2
      simp only [List.mem_append, List.mem_cons] at hb2
      rcases hb2 with hb2 | rfl | hb2
      · exact hopen b2 (by rw [heq]; simp [hb2])
      · refine ⟨hqpu, ?_, hfull,
          fun _ => by show 0 < b.capacity - (jobQubits job : Int); omega, ?_⟩
        · rw [binLoad_append]
          push_cast
          omega
        · intro j hj
          simp at hj
          rcases hj with hj | rfl
          · exact hinst j hj
          · exact hjob
      · exact hopen b2 (by rw [heq]; simp [hb2])
    · intro b2 hb2
      simp only [List.mem_append, List.mem_cons] at hb2
      rcases hb2 with hb2 | rfl | hb2
      · exact hoidx b2 (by rw [heq]; simp [hb2])
      · exact hbidx
      · exact hoidx b2 (by rw [heq]; simp [hb2])

theorem packStep_ok (accelerators : List (String × Int)) (st : PackState)
    (job : JobHelper) (st2 : PackState) (hOK : StateOK accelerators st)
    (h : packStep accelerators st job = some st2) :
    StateOK accelerators st2 := by
  rcases hOK with ⟨hopen, hclosed, hoidx, hcidx, h1le⟩
  unfold packStep at h
  by_cases hskip : job.inst.isNone
  · rw [if_pos hskip] at h
    cases h
    exact ⟨hopen, hclosed, hoidx, hcidx, h1le⟩
  · rw [if_neg hskip] at h
    have hjob : job.inst.isSome := by
      cases hj : job.inst
      · rw [hj] at hskip; simp at hskip
      · simp [hj]
    cases hfind : find_fitting_bin job st.open_bins with
    | some bin_idx =>
      simp only [hfind] at h
      cases h
      rcases ffb_some_spec job st.open_bins bin_idx hfind with ⟨hlt, hfit⟩
      exact placeJob_ok accelerators job st.closed_bins st.open_bins bin_idx st.index
        hopen hclosed hoidx hcidx h1le hlt hfit hjob
    | none =>
      simp only [hfind] at h
      cases hfind2 : find_fitting_bin job (freshBins accelerators st.index) with
      | none =>
        simp only [hfind2] at h
        exact Option.noConfusion h
      | some i =>
        simp only [hfind2] at h
        cases h
        rcases ffb_some_spec job (freshBins accelerators st.index) i hfind2 with ⟨hlt, hfit⟩
        apply placeJob_ok accelerators job st.closed_bins
          (st.open_bins ++ freshBins accelerators st.index)
          (i + st.open_bins.length) (st.index + 1)
        · intro b hb
          simp only [List.mem_append] at hb
          rcases hb with hb | hb
          · exact hopen b hb
          · rcases freshBins_mem accelerators st.index b hb with ⟨_, hjobs, hfull2, hq, hc⟩
            exact ⟨hq, by rw [hc]; simp [binLoad, hjobs], hfull2,
              fun hne => absurd hjobs hne, by rw [hjobs]; simp⟩
        · exact hclosed
        · intro b hb
          simp only [List.mem_append] at hb
          rcases hb with hb | hb
          · exact Nat.lt_succ_of_lt (hoidx b hb)
          · rcases freshBins_mem accelerators st.index b hb with ⟨hidx2, _, _, _, _⟩
            omega
        · intro b hb
          exact Nat.lt_succ_of_lt (hcidx b hb)
        · omega
        · simp only [List.length_append]
          omega
        · rw [getD_append_right_own]
          exact hfit
        · exact hjob

theorem foldlM_option_inv {σ α : Type} (f : σ → α → Option σ) (P : σ → Prop)
    (hf : ∀ s a s2, P s → f s a = some s2 → P s2) :
    ∀ (l : List α) (s s2 : σ), P s → l.foldlM f s = some s2 → P s2 := by
  intro l
  induction l with
  | nil =>
    intro s s2 hP h
    simp at h
    cases h
    exact hP
  | cons a as ih =>
    intro s s2 hP h
    rw [List.foldlM_cons] at h
    rcases Option.bind_eq_some.mp h with ⟨s1, h1, h2⟩
    exact ih s1 s2 (hf s a s1 hP h1) h2

theorem initState_ok (accelerators : List (String × Int)) :
    StateOK accelerators (initState accelerators) := by
  refine ⟨?_, ?_, ?_, ?_, le_refl 1⟩
  · intro b hb
    rcases freshBins_mem accelerators 0 b hb with ⟨_, hjobs, hfull2, hq, hc⟩
    exact ⟨hq, by rw [hc]; simp [binLoad, hjobs], hfull2,
      fun hne => absurd hjobs hne, by rw [hjobs]; simp⟩
  · intro b hb; cases hb
  · intro b hb
    rcases freshBins_mem accelerators 0 b hb with ⟨hidx2, _, _, _, _⟩
    rw [hidx2]
    exact Nat.zero_lt_one
  · intro b hb; cases hb

theorem packJobs_StateOK (accelerators : List (String × Int))
    (helpers : List JobHelper) (st2 : PackState)
    (h : packJobs accelerators helpers = some st2) :
    StateOK accelerators st2 :=
  foldlM_option_inv (packStep accelerators) (StateOK accelerators)
    (packStep_ok accelerators) helpers (initState accelerators) st2
    (initState_ok accelerators) h

/-! Facts about the emitted bins. -/

theorem emittedBins_inv (accelerators : List (String × Int))
    (jobs : List (Option Circuit)) (bins : List Bin)
    (h : emittedBins accelerators jobs = some bins) :
    ∃ st, pack accelerators jobs = some st ∧
      bins = sortBinsByIndex (closeRemaining st) ∧ StateOK accelerators st := by
  unfold emittedBins at h
  rcases Option.map_eq_some'.mp h with ⟨st, hst, hbins⟩
  exact ⟨st, hst, hbins.symm, packJobs_StateOK accelerators (helpersOf jobs) st hst⟩

theorem closeRemaining_bin_ok (accelerators : List (String × Int)) (st : PackState)
    (hOK : StateOK accelerators st) (b : Bin) (hb : b ∈ closeRemaining st) :
    b.qpu < accelerators.length ∧
    b.capacity = nominalCap accelerators b.qpu - (binLoad b : Int) ∧
    b.jobs ≠ [] ∧ (b.full = true → b.capacity = 0) ∧
    (b.full = false → 0 < b.capacity) ∧ (∀ j ∈ b.jobs, j.inst.isSome) := by
  rcases hOK with ⟨hopen, hclosed, _, _, _⟩
  unfold closeRemaining at hb
  rw [List.mem_append] at hb
  rcases hb with hb | hb
  · rcases hclosed b hb with ⟨h1, h2, h3, h4, h5, h6⟩
    refine ⟨h1, h2, h5, fun _ => h4, ?_, h6⟩
    intro hf
    rw [h3] at hf
    cases hf
  · rw [List.mem_filter] at hb
    rcases hb with ⟨hb, hne⟩
    rcases hopen b hb with ⟨h1, h2, h3, h4, h5⟩
    have hjobs : b.jobs ≠ [] := by
      simp at hne
      exact List.ne_nil_of_length_pos hne
    refine ⟨h1, h2, hjobs, ?_, fun _ => h4 hjobs, h5⟩
    intro hf
    rw [h3] at hf
    cases hf

theorem sortBinsByIndex_perm (l : List Bin) : List.Perm (sortBinsByIndex l) l :=
  List.perm_insertionSort binLE l

theorem emittedBins_bin_ok (accelerators : List (String × Int))
    (jobs : List (Option Circuit)) (bins : List Bin) (b : Bin)
    (h : emittedBins accelerators jobs = some bins) (hb : b ∈ bins) :
    b.qpu < accelerators.length ∧
    b.capacity = nominalCap accelerators b.qpu - (binLoad b : Int) ∧
    b.jobs ≠ [] ∧ (b.full = true → b.capacity = 0) ∧
    (b.full = false → 0 < b.capacity) ∧ (∀ j ∈ b.jobs, j.inst.isSome) := by
  rcases emittedBins_inv accelerators jobs bins h with ⟨st, _, hbins, hOK⟩
  apply closeRemaining_bin_ok accelerators st hOK b
  rw [hbins] at hb
  exact (sortBinsByIndex_perm (closeRemaining st)).mem_iff.mp hb

/-- C4: for every bin emitted by `generate_baseline_schedule`, the total qubit
requirement of the jobs assigned to it is at most the bin's machine capacity,
with equality exactly when the bin is marked full. -/
theorem C4_capacity_invariant (accelerators : List (String × Int))
    (jobs : List (Option Circuit)) (bins : List Bin) (b : Bin)
    (h : emittedBins accelerators jobs = some bins) (hb : b ∈ bins) :
    (binLoad b : Int) ≤ nominalCap accelerators b.qpu ∧
      ((binLoad b : Int) = nominalCap accelerators b.qpu ↔ b.full = true) := by
  rcases emittedBins_bin_ok accelerators jobs bins b h hb with ⟨_, hcap, _, hfullcap, hopencap, _⟩
  cases hfull : b.full
  · have hpos : 0 < b.capacity := hopencap hfull
    constructor
    · omega
    · constructor
      · intro heq; omega
      · intro hcontra; cases hcontra
  · have hzero : b.capacity = 0 := hfullcap hfull
    constructor
    · omega
    · exact ⟨fun _ => rfl, fun _ => by omega⟩

/-- Witness for C4 at a concrete input: two machines of capacity 4, jobs of 3
and 4 qubits; the full bin of machine 1 attains its capacity exactly. -/
theorem C4_capacity_invariant_witness :
    (binLoad (⟨0, 0, 1, [⟨"2", some ⟨4⟩⟩], true⟩ : Bin) : Int) ≤
        nominalCap [("m0", 4), ("m1", 4)] 1 ∧
      ((binLoad (⟨0, 0, 1, [⟨"2", some ⟨4⟩⟩], true⟩ : Bin) : Int) =
          nominalCap [("m0", 4), ("m1", 4)] 1 ↔
        (⟨0, 0, 1, [⟨"2", some ⟨4⟩⟩], true⟩ : Bin).full = true) :=
  C4_capacity_invariant [("m0", 4), ("m1", 4)] [some ⟨3⟩, some ⟨4⟩]
    [⟨0, 0, 1, [⟨"2", some ⟨4⟩⟩], true⟩, ⟨0, 1, 0, [⟨"1", some ⟨3⟩⟩], false⟩]
    ⟨0, 0, 1, [⟨"2", some ⟨4⟩⟩], true⟩ (by decide) (by decide)

/-! Sortedness and stability of the final sort. -/

theorem sortBinsByIndex_sorted (l : List Bin) :
    List.Sorted binLE (sortBinsByIndex l) :=
  List.sorted_insertionSort binLE l

theorem filter_orderedInsert (g : Nat) (b : Bin) :
    ∀ l : List Bin,
      (List.orderedInsert binLE b l).filter (fun x => x.index == g) =
        if b.index = g then b :: l.filter (fun x => x.index == g)
        else l.filter (fun x => x.index == g) := by
  intro l
  induction l with
  | nil =>
    by_cases hg : b.index = g <;>
      simp [List.orderedInsert, List.filter_cons, hg]
  | cons c cs ih =>
    by_cases hbc : binLE b c
    · by_cases hg : b.index = g <;>
        simp [List.orderedInsert, if_pos hbc, List.filter_cons, hg]
    · have hlt : c.index < b.index := by
        unfold binLE at hbc
        omega
      by_cases hcg : c.index = g
      · have hbg : ¬ b.index = g := by omega
        simp [List.orderedInsert, if_neg hbc, List.filter_cons, hcg, hbg, ih]
      · by_cases hbg : b.index = g <;>
          simp [List.orderedInsert, if_neg hbc, List.filter_cons, hcg, hbg, ih]

theorem sortBinsByIndex_stable (g : Nat) :
    ∀ l : List Bin,
      (sortBinsByIndex l).filter (fun x => x.index == g) =
        l.filter (fun x => x.index == g) := by
  intro l
  induction l with
  | nil => rfl
  | cons b bs ih =>
    show (List.orderedInsert binLE b (List.insertionSort binLE bs)).filter
        (fun x => x.index == g) = (b :: bs).filter (fun x => x.index == g)
    rw [filter_orderedInsert]
    unfold sortBinsByIndex at ih
    by_cases hg : b.index = g <;>
      simp [List.filter_cons, hg, ih]

/-- C8: Scenario A — machines of capacity 4 and 4, jobs of 3, 3, 3 qubits in
order: exactly three non-empty bins, generations 0, 0, 1; job 1 in machine 0's
generation-0 bin, job 2 in machine 1's generation-0 bin, job 3 in machine 0's
generation-1 bin. -/
theorem C8_scenario_A :
    emittedBins [("m0", 4), ("m1", 4)] [some ⟨3⟩, some ⟨3⟩, some ⟨3⟩] =
      some [⟨0, 1, 0, [⟨"1", some ⟨3⟩⟩], false⟩, ⟨0, 1, 1, [⟨"2", some ⟨3⟩⟩], false⟩,
        ⟨1, 1, 0, [⟨"3", some ⟨3⟩⟩], false⟩] := by
  rfl

/-- C1 fails as stated: with machines of capacity 4 and 4 and jobs of 3 and 4
qubits, both emitted bins belong to generation 0, yet the bin of machine 1
(closed full first) precedes the bin of machine 0, breaking the machine
iteration order on ties. -/
theorem C1_counterexample :
    emittedBins [("m0", 4), ("m1", 4)] [some ⟨3⟩, some ⟨4⟩] =
      some [⟨0, 0, 1, [⟨"2", some ⟨4⟩⟩], true⟩, ⟨0, 1, 0, [⟨"1", some ⟨3⟩⟩], false⟩] ∧
    ¬ List.Pairwise
      (fun a b : Bin => a.index < b.index ∨ (a.index = b.index ∧ a.qpu ≤ b.qpu))
      [⟨0, 0, 1, [⟨"2", some ⟨4⟩⟩], true⟩, ⟨0, 1, 0, [⟨"1", some ⟨3⟩⟩], false⟩] := by
  constructor
  · rfl
  · decide

/-- C1 (amended): the emitted bins are sorted by generation index ascending,
and any two bins of the same generation appear in the order in which they were
closed (full bins first, in fill order, then the leftover open bins),
not necessarily in machine iteration order. -/
theorem C1_generation_order (accelerators : List (String × Int))
    (jobs : List (Option Circuit)) (st : PackState)
    (h : pack accelerators jobs = some st) :
    emittedBins accelerators jobs = some (sortBinsByIndex (closeRemaining st)) ∧
    List.Sorted binLE (sortBinsByIndex (closeRemaining st)) ∧
    ∀ g : Nat,
      (sortBinsByIndex (closeRemaining st)).filter (fun b => b.index == g) =
        (closeRemaining st).filter (fun b => b.index == g) := by
  refine ⟨?_, sortBinsByIndex_sorted (closeRemaining st),
    fun g => sortBinsByIndex_stable g (closeRemaining st)⟩
  unfold emittedBins
  rw [h]
  rfl

/-- Witness for the amended C1 at a concrete input: machines of capacity 4 and
4, jobs of 3 and 4 qubits. -/
theorem C1_generation_order_witness :
    emittedBins [("m0", 4), ("m1", 4)] [some ⟨3⟩, some ⟨4⟩] =
      some (sortBinsByIndex (closeRemaining
        ⟨[⟨0, 1, 0, [⟨"1", some ⟨3⟩⟩], false⟩],
         [⟨0, 0, 1, [⟨"2", some ⟨4⟩⟩], true⟩], 1⟩)) ∧
    List.Sorted binLE (sortBinsByIndex (closeRemaining
      ⟨[⟨0, 1, 0, [⟨"1", some ⟨3⟩⟩], false⟩],
       [⟨0, 0, 1, [⟨"2", some ⟨4⟩⟩], true⟩], 1⟩)) ∧
    ∀ g : Nat,
      (sortBinsByIndex (closeRemaining
        ⟨[⟨0, 1, 0, [⟨"1", some ⟨3⟩⟩], false⟩],
         [⟨0, 0, 1, [⟨"2", some ⟨4⟩⟩], true⟩], 1⟩)).filter (fun b => b.index == g) =
      (closeRemaining
        ⟨[⟨0, 1, 0, [⟨"1", some ⟨3⟩⟩], false⟩],
         [⟨0, 0, 1, [⟨"2", some ⟨4⟩⟩], true⟩], 1⟩).filter (fun b => b.index == g) :=
  C1_generation_order [("m0", 4), ("m1", 4)] [some ⟨3⟩, some ⟨4⟩]
    ⟨[⟨0, 1, 0, [⟨"1", some ⟨3⟩⟩], false⟩],
     [⟨0, 0, 1, [⟨"2", some ⟨4⟩⟩], true⟩], 1⟩ (by decide)

/-! C7: first-fit correctness of the generation opening. -/

theorem placeJob_index (job : JobHelper) (closed obins : List Bin)
    (idx newIndex : Nat) : (placeJob job closed obins idx newIndex).index = newIndex := by
  simp only [placeJob]
  split <;> rfl

theorem jobQubits_of_some (job : JobHelper) (c : Circuit) (h : job.inst = some c) :
    jobQubits job = c.num_qubits := by
  simp [jobQubits, h]

/-- C7: whenever the packing loop opens a new generation while processing a job
(the only case in which the generation counter advances), no currently open bin
has remaining capacity at least the job's qubit requirement; consequently the
emitted bins carry non-decreasing generation indices. -/
theorem C7_first_fit (accelerators : List (String × Int)) :
    (∀ (st : PackState) (job : JobHelper) (c : Circuit) (st2 : PackState),
      job.inst = some c → packStep accelerators st job = some st2 →
      st.index < st2.index →
      ∀ b ∈ st.open_bins, b.capacity < (c.num_qubits : Int)) ∧
    (∀ (jobs : List (Option Circuit)) (bins : List Bin),
      emittedBins accelerators jobs = some bins → List.Sorted binLE bins) := by
  constructor
  · intro st job c st2 hc hstep hidx b hb
    unfold packStep at hstep
    have hnone : ¬ job.inst.isNone := by simp [hc]
    rw [if_neg hnone] at hstep
    cases hfind : find_fitting_bin job st.open_bins with
    | some bin_idx =>
      simp only [hfind] at hstep
      cases hstep
      rw [placeJob_index] at hidx
      omega
    | none =>
      have := ffb_none_spec job st.open_bins hfind b hb
      rw [jobQubits_of_some job c hc] at this
      exact this
  · intro jobs bins h
    rcases emittedBins_inv accelerators jobs bins h with ⟨st, _, hbins, _⟩
    rw [hbins]
    exact sortBinsByIndex_sorted (closeRemaining st)

/-- Witness for C7: a job of 2 qubits forces a new generation past an open bin
with remaining capacity 1; a one-job schedule is sorted. -/
theorem C7_first_fit_witness :
    (⟨0, 1, 0, [⟨"1", some ⟨1⟩⟩], false⟩ : Bin).capacity <
      ((⟨2⟩ : Circuit).num_qubits : Int) ∧
    List.Sorted binLE [⟨0, 0, 0, [⟨"1", some ⟨2⟩⟩], true⟩] :=
  ⟨(C7_first_fit [("m", 2)]).1 ⟨[⟨0, 1, 0, [⟨"1", some ⟨1⟩⟩], false⟩], [], 1⟩
      ⟨"2", some ⟨2⟩⟩ ⟨2⟩
      ⟨[⟨0, 1, 0, [⟨"1", some ⟨1⟩⟩], false⟩], [⟨1, 0, 0, [⟨"2", some ⟨2⟩⟩], true⟩], 2⟩
      rfl (by decide) (by decide)
      ⟨0, 1, 0, [⟨"1", some ⟨1⟩⟩], false⟩ (by decide),
   (C7_first_fit [("m", 2)]).2 [some ⟨2⟩] [⟨0, 0, 0, [⟨"1", some ⟨2⟩⟩], true⟩]
      (by decide)⟩

/-! C6: the run aborts exactly on an infeasible job. -/

theorem getD_mem_own {α : Type} (d : α) :
    ∀ (l : List α) (n : Nat), n < l.length → l.getD n d ∈ l := by
  intro l
  induction l with
  | nil => intro n h; simp at h
  | cons hd tl ih =>
    intro n h
    cases n with
    | zero => simp
    | succ m =>
      have hm : m < tl.length := by simpa using h
      right
      simpa using ih m hm

/-- A job circuit no machine can ever hold: its qubit requirement exceeds every
nominal machine capacity. -/
def badJob (accelerators : List (String × Int)) (c : Circuit) : Prop :=
  ∀ cap ∈ accelerators.map Prod.snd, cap < (c.num_qubits : Int)

instance (accelerators : List (String × Int)) (c : Circuit) :
    Decidable (badJob accelerators c) :=
  List.decidableBAll _ (accelerators.map Prod.snd)

theorem ffb_none_iff (job : JobHelper) (bins : List Bin) :
    find_fitting_bin job bins = none ↔
      ∀ b ∈ bins, b.capacity < (jobQubits job : Int) := by
  constructor
  · exact ffb_none_spec job bins
  · intro hall
    cases hf : find_fitting_bin job bins with
    | none => rfl
    | some i =>
      exfalso
      rcases ffb_some_spec job bins i hf with ⟨hlt, hfit⟩
      have hmem := getD_mem_own default bins i hlt
      have := hall (bins.getD i default) hmem
      omega

theorem ffb_fresh_none_iff (job : JobHelper) (accelerators : List (String × Int))
    (index : Nat) :
    find_fitting_bin job (freshBins accelerators index) = none ↔
      ∀ cap ∈ accelerators.map Prod.snd, cap < (jobQubits job : Int) := by
  rw [ffb_none_iff]
  constructor
  · intro hall cap hcap
    have hcaps : (freshBins accelerators index).map Bin.capacity =
        accelerators.map Prod.snd := freshBinsAux_capacities index _ 0
    rw [← hcaps] at hcap
    rcases List.mem_map.mp hcap with ⟨b, hb, rfl⟩
    exact hall b hb
  · intro hall b hb
    rcases freshBins_mem accelerators index b hb with ⟨_, _, _, hq, hc⟩
    apply hall
    rw [hc, nominalCap]
    apply getD_mem_own
    simpa using hq

theorem packStep_none_of_bad (accelerators : List (String × Int)) (st : PackState)
    (job : JobHelper) (c : Circuit) (hOK : StateOK accelerators st)
    (hc : job.inst = some c) (hbad : badJob accelerators c) :
    packStep accelerators st job = none := by
  have hnone : ¬ job.inst.isNone = true := by simp [hc]
  have hq : jobQubits job = c.num_qubits := jobQubits_of_some job c hc
  have hopen : find_fitting_bin job st.open_bins = none := by
    rw [ffb_none_iff]
    intro b hb
    rcases hOK.1 b hb with ⟨hqpu, hcap, _, _, _⟩
    have hnom : nominalCap accelerators b.qpu ∈ accelerators.map Prod.snd := by
      rw [nominalCap]
      apply getD_mem_own
      simpa using hqpu
    have := hbad (nominalCap accelerators b.qpu) hnom
    rw [hq]
    omega
  have hfresh : find_fitting_bin job (freshBins accelerators st.index) = none := by
    rw [ffb_fresh_none_iff, hq]
    exact hbad
  unfold packStep
  rw [if_neg hnone, hopen]
  simp only [hfresh]

theorem packStep_some_of_good (accelerators : List (String × Int)) (st : PackState)
    (job : JobHelper) (c : Circuit) (hc : job.inst = some c)
    (hgood : ¬ badJob accelerators c) :
    ∃ st2, packStep accelerators st job = some st2 := by
  have hnone : ¬ job.inst.isNone = true := by simp [hc]
  have hq : jobQubits job = c.num_qubits := jobQubits_of_some job c hc
  unfold packStep
  rw [if_neg hnone]
  cases hfind : find_fitting_bin job st.open_bins with
  | some bin_idx => exact ⟨_, rfl⟩
  | none =>
    cases hfresh : find_fitting_bin job (freshBins accelerators st.index) with
    | none =>
      exfalso
      rw [ffb_fresh_none_iff, hq] at hfresh
      exact hgood hfresh
    | some i =>
      exact ⟨placeJob job st.closed_bins
        (st.open_bins ++ freshBins accelerators st.index)
        (i + st.open_bins.length) (st.index + 1), by simp only [hfresh]⟩

theorem packFold_none_iff (accelerators : List (String × Int)) :
    ∀ (hs : List JobHelper) (st : PackState), StateOK accelerators st →
      (List.foldlM (packStep accelerators) st hs = none ↔
        ∃ h ∈ hs, ∃ c, h.inst = some c ∧ badJob accelerators c) := by
  intro hs
  induction hs with
  | nil =>
    intro st _
    simp
  | cons h rest ih =>
    intro st hOK
    rw [List.foldlM_cons]
    cases hc : h.inst with
    | none =>
      have hstep : packStep accelerators st h = some st := by
        unfold packStep
        rw [if_pos (by simp [hc])]
      rw [hstep]
      show List.foldlM (packStep accelerators) st rest = none ↔ _
      rw [ih st hOK]
      constructor
      · intro ⟨h2, hmem, hex⟩
        exact ⟨h2, List.mem_cons_of_mem h hmem, hex⟩
      · intro ⟨h2, hmem, c, hc2, hbad⟩
        rcases List.mem_cons.mp hmem with rfl | hmem
        · rw [hc] at hc2; cases hc2
        · exact ⟨h2, hmem, c, hc2, hbad⟩
    | some c =>
      by_cases hbad : badJob accelerators c
      · rw [packStep_none_of_bad accelerators st h c hOK hc hbad]
        constructor
        · intro _
          exact ⟨h, List.mem_cons_self h rest, c, hc, hbad⟩
        · intro _
          rfl
      · rcases packStep_some_of_good accelerators st h c hc hbad with ⟨st2, hstep⟩
        rw [hstep]
        show List.foldlM (packStep accelerators) st2 rest = none ↔ _
        rw [ih st2 (packStep_ok accelerators st h st2 hOK hstep)]
        constructor
        · intro ⟨h2, hmem, hex⟩
          exact ⟨h2, List.mem_cons_of_mem h hmem, hex⟩
        · intro ⟨h2, hmem, c2, hc2, hbad2⟩
          rcases List.mem_cons.mp hmem with rfl | hmem
          · rw [hc] at hc2
            cases hc2
            exact absurd hbad2 hbad
          · exact ⟨h2, hmem, c2, hc2, hbad2⟩

theorem helpersOf_insts (jobs : List (Option Circuit)) :
    (helpersOf jobs).map JobHelper.inst = jobs := by
  unfold helpersOf
  rw [List.map_map]
  exact List.enum_map_snd jobs

theorem pack_none_iff (accelerators : List (String × Int))
    (jobs : List (Option Circuit)) :
    pack accelerators jobs = none ↔
      ∃ c, some c ∈ jobs ∧ badJob accelerators c := by
  unfold pack packJobs
  rw [packFold_none_iff accelerators (helpersOf jobs) (initState accelerators)
    (initState_ok accelerators)]
  constructor
  · intro ⟨h, hmem, c, hc, hbad⟩
    refine ⟨c, ?_, hbad⟩
    rw [← helpersOf_insts jobs, ← hc]
    exact List.mem_map_of_mem JobHelper.inst hmem
  · intro ⟨c, hmem, hbad⟩
    rw [← helpersOf_insts jobs] at hmem
    rcases List.mem_map.mp hmem with ⟨h, hh, hc⟩
    exact ⟨h, hh, c, hc, hbad⟩

/-- C6: `generate_baseline_schedule` aborts (the `assert` fatal failure) exactly
when some processed job's qubit requirement exceeds every machine's nominal
capacity; when a job list contains such a job, no schedule is produced,
whatever the other inputs. -/
theorem C6_infeasible_abort (accelerators : List (String × Int))
    (jobs : List (Option Circuit)) (process_times : List (List ℚ))
    (setup_times : List (List (List ℚ))) :
    (generate_baseline_schedule jobs accelerators process_times setup_times = none ↔
      ∃ c, some c ∈ jobs ∧ badJob accelerators c) ∧
    (∀ (pre post : List (Option Circuit)) (c : Circuit),
      jobs = pre ++ some c :: post → badJob accelerators c →
      generate_baseline_schedule jobs accelerators process_times setup_times = none) := by
  have hmain : generate_baseline_schedule jobs accelerators process_times setup_times
      = none ↔ ∃ c, some c ∈ jobs ∧ badJob accelerators c := by
    unfold generate_baseline_schedule emittedBins
    rw [Option.map_eq_none', Option.map_eq_none']
    exact pack_none_iff accelerators jobs
  refine ⟨hmain, ?_⟩
  intro pre post c hsplit hbad
  rw [hmain]
  exact ⟨c, by rw [hsplit]; simp, hbad⟩

/-- Witness for C6: a 3-qubit job on a single machine of capacity 2 aborts the
run. -/
theorem C6_infeasible_abort_witness :
    generate_baseline_schedule [some ⟨3⟩] [("m", 2)] [] [] = none :=
  (C6_infeasible_abort [("m", 2)] [some ⟨3⟩] [] []).2 [] [] ⟨3⟩ rfl (by decide)

/-! C2: behaviour on malformed input. -/

theorem packJobs_all_skipped (accelerators : List (String × Int)) :
    ∀ (hs : List JobHelper) (st : PackState), (∀ h ∈ hs, h.inst = none) →
      List.foldlM (packStep accelerators) st hs = some st := by
  intro hs
  induction hs with
  | nil => intro st _; rfl
  | cons h rest ih =>
    intro st hall
    rw [List.foldlM_cons]
    have hstep : packStep accelerators st h = some st := by
      unfold packStep
      rw [if_pos (by simp [hall h (List.mem_cons_self h rest)])]
    rw [hstep]
    show List.foldlM (packStep accelerators) st rest = some st
    exact ih st (fun h2 hh2 => hall h2 (List.mem_cons_of_mem h hh2))

theorem freshBinsAux_filter_empty (index : Nat) :
    ∀ (caps : List Int) (q : Nat),
      (freshBinsAux index q caps).filter (fun b => decide (0 < b.jobs.length)) = [] := by
  intro caps
  induction caps with
  | nil => intro q; rfl
  | cons c cs ih =>
    intro q
    simp only [freshBinsAux, List.filter_cons]
    rw [if_neg (by simp)]
    exact ih (q + 1)

theorem closeRemaining_init (accelerators : List (String × Int)) :
    closeRemaining (initState accelerators) = [] := by
  unfold closeRemaining initState freshBins
  simp only [List.nil_append]
  exact freshBinsAux_filter_empty 0 (accelerators.map Prod.snd) 0

/-- C2 (amended): `generate_baseline_schedule` performs no validation at entry.
A negative machine capacity is accepted: the run proceeds and that machine
simply never receives a job (no emitted bin refers to it).  An empty machine
set is rejected only when the first non-skipped job is processed, succeeding
with zero bins when every entry is skipped.  Duplicate job identifiers cannot
arise, since identifiers are generated internally. -/
theorem C2_no_entry_validation (accelerators : List (String × Int))
    (jobs : List (Option Circuit)) :
    (∀ (bins : List Bin) (k : Nat), emittedBins accelerators jobs = some bins →
      nominalCap accelerators k < 0 → ∀ b ∈ bins, b.qpu ≠ k) ∧
    (emittedBins [] jobs = if jobs.all Option.isNone then some [] else none) := by
  constructor
  · intro bins k h hneg b hb hqk
    rcases emittedBins_bin_ok accelerators jobs bins b h hb with
      ⟨_, hcap, _, hfullcap, hopencap, _⟩
    have hnonneg : 0 ≤ b.capacity := by
      cases hfull : b.full
      · have := hopencap hfull; omega
      · have := hfullcap hfull; omega
    rw [hqk] at hcap
    have hload : 0 ≤ (binLoad b : Int) := Int.ofNat_nonneg (binLoad b)
    omega
  · by_cases hall : jobs.all Option.isNone
    · rw [if_pos hall]
      have hskip : ∀ h ∈ helpersOf jobs, h.inst = none := by
        intro h hh
        have : h.inst ∈ jobs := by
          rw [← helpersOf_insts jobs]
          exact List.mem_map_of_mem JobHelper.inst hh
        have := List.all_eq_true.mp hall h.inst this
        simpa using this
      unfold emittedBins pack packJobs
      rw [packJobs_all_skipped [] (helpersOf jobs) (initState []) hskip]
      rw [Option.map_some']
      rw [closeRemaining_init]
      rfl
    · rw [if_neg hall]
      have hfail : pack [] jobs = none := by
        rw [pack_none_iff]
        have hne : jobs.filter (fun j => !j.isNone) ≠ [] := by
          intro hnil
          apply hall
          rw [List.all_eq_true]
          intro x hx
          by_cases hxs : x.isNone = true
          · exact hxs
          · exfalso
            have hxmem : x ∈ jobs.filter (fun j => !j.isNone) := by
              rw [List.mem_filter]
              exact ⟨hx, by simp_all [Option.isSome_iff_ne_none]⟩
            rw [hnil] at hxmem
            cases hxmem
        rcases List.exists_mem_of_ne_nil (jobs.filter (fun j => !j.isNone)) hne with
          ⟨x, hx⟩
        rw [List.mem_filter] at hx
        rcases hx with ⟨hxmem, hxsome⟩
        cases x with
        | none => simp at hxsome
        | some c => exact ⟨c, hxmem, fun cap hcap => by simp at hcap⟩
      unfold emittedBins
      rw [hfail]
      rfl

/-- Witness for the amended C2: machine 0 has capacity −1, machine 1 has
capacity 4; the single 2-qubit job lands on machine 1, never machine 0. -/
theorem C2_no_entry_validation_witness :
    (⟨0, 2, 1, [⟨"1", some ⟨2⟩⟩], false⟩ : Bin).qpu ≠ 0 :=
  (C2_no_entry_validation [("m0", -1), ("m1", 4)] [some ⟨2⟩]).1
    [⟨0, 2, 1, [⟨"1", some ⟨2⟩⟩], false⟩] 0 (by decide) (by decide)
    ⟨0, 2, 1, [⟨"1", some ⟨2⟩⟩], false⟩ (by decide)

/-- C2 fails as stated: the malformed input with a negative machine capacity is
not rejected at entry — the call runs to completion and returns a schedule. -/
theorem C2_counterexample :
    (generate_baseline_schedule [some ⟨2⟩] [("m0", -1), ("m1", 4)] [[5, 7]] []).map
      Prod.snd = some [⟨"1", "m1", 0, -1⟩] := by
  rfl

/-! C3: how many generations a run can open. -/

theorem packStep_index_le (accelerators : List (String × Int)) (st : PackState)
    (job : JobHelper) (st2 : PackState)
    (h : packStep accelerators st job = some st2) :
    st2.index ≤ st.index + 1 ∧ (job.inst.isNone = true → st2 = st) := by
  unfold packStep at h
  by_cases hskip : job.inst.isNone
  · rw [if_pos hskip] at h
    cases h
    exact ⟨Nat.le_succ _, fun _ => rfl⟩
  · rw [if_neg hskip] at h
    cases hfind : find_fitting_bin job st.open_bins with
    | some i =>
      simp only [hfind] at h
      cases h
      rw [placeJob_index]
      exact ⟨Nat.le_succ _, fun hcontra => absurd hcontra hskip⟩
    | none =>
      simp only [hfind] at h
      cases hfresh : find_fitting_bin job (freshBins accelerators st.index) with
      | none =>
        simp only [hfresh] at h
        exact Option.noConfusion h
      | some i =>
        simp only [hfresh] at h
        cases h
        rw [placeJob_index]
        exact ⟨Nat.le_refl _, fun hcontra => absurd hcontra hskip⟩

theorem foldlM_index_le (accelerators : List (String × Int)) :
    ∀ (hs : List JobHelper) (st st2 : PackState),
      List.foldlM (packStep accelerators) st hs = some st2 →
      st2.index ≤ st.index + (hs.filter (fun h => h.inst.isSome)).length := by
  intro hs
  induction hs with
  | nil =>
    intro st st2 h
    simp at h
    cases h
    omega
  | cons h rest ih =>
    intro st st2 hfold
    rw [List.foldlM_cons] at hfold
    rcases Option.bind_eq_some.mp hfold with ⟨st1, h1, h2⟩
    have hbound := ih st1 st2 h2
    by_cases hsome : h.inst.isSome
    · have hstep := (packStep_index_le accelerators st h st1 h1).1
      rw [List.filter_cons, if_pos hsome]
      simp only [List.length_cons]
      omega
    · have heq : st1 = st :=
        (packStep_index_le accelerators st h st1 h1).2 (by simpa using hsome)
      subst heq
      rw [List.filter_cons, if_neg hsome]
      omega

theorem packStep_init_index (accelerators : List (String × Int)) (job : JobHelper)
    (st2 : PackState)
    (h : packStep accelerators (initState accelerators) job = some st2) :
    st2.index = 1 := by
  unfold packStep at h
  by_cases hskip : job.inst.isNone
  · rw [if_pos hskip] at h
    cases h
    rfl
  · rw [if_neg hskip] at h
    cases hfind : find_fitting_bin job (initState accelerators).open_bins with
    | some i =>
      simp only [hfind] at h
      cases h
      rw [placeJob_index]
      rfl
    | none =>
      exfalso
      have hfresh : find_fitting_bin job
          (freshBins accelerators (initState accelerators).index) = none := by
        rw [ffb_freshBins_congr job accelerators (initState accelerators).index 0]
        exact hfind
      simp only [hfind, hfresh] at h
      exact Option.noConfusion h

theorem pack_index_le_placed (accelerators : List (String × Int)) :
    ∀ (hs : List JobHelper) (st2 : PackState),
      List.foldlM (packStep accelerators) (initState accelerators) hs = some st2 →
      st2.index ≤ max 1 ((hs.filter (fun h => h.inst.isSome)).length) := by
  intro hs
  induction hs with
  | nil =>
    intro st2 h
    simp at h
    cases h
    show (initState accelerators).index ≤ _
    simp [initState]
  | cons h rest ih =>
    intro st2 hfold
    rw [List.foldlM_cons] at hfold
    rcases Option.bind_eq_some.mp hfold with ⟨st1, h1, h2⟩
    have hst1 : st1.index = 1 := packStep_init_index accelerators h st1 h1
    by_cases hsome : h.inst.isSome
    · have hbound := foldlM_index_le accelerators rest st1 st2 h2
      rw [List.filter_cons, if_pos hsome]
      simp only [List.length_cons]
      rw [hst1] at hbound
      have hle : st2.index ≤ (rest.filter (fun h => h.inst.isSome)).length + 1 := by
        omega
      exact le_trans hle (Nat.le_max_right 1 _)
    · have heq : st1 = initState accelerators :=
        (packStep_index_le accelerators (initState accelerators) h st1 h1).2
          (by simpa using hsome)
      subst heq
      rw [List.filter_cons, if_neg hsome]
      exact ih st2 h2

theorem enumFrom_filter_snd_length {α : Type} (p : α → Bool) :
    ∀ (l : List α) (n : Nat),
      ((List.enumFrom n l).filter (fun pr => p pr.2)).length = (l.filter p).length := by
  intro l
  induction l with
  | nil => intro n; rfl
  | cons x xs ih =>
    intro n
    simp only [List.enumFrom, List.filter_cons]
    by_cases hp : p x
    · rw [if_pos (by simpa using hp), if_pos hp]
      simp only [List.length_cons]
      rw [ih (n + 1)]
    · rw [if_neg (by simpa using hp), if_neg hp]
      exact ih (n + 1)

theorem helpersOf_placed_length (jobs : List (Option Circuit)) :
    ((helpersOf jobs).filter (fun h => h.inst.isSome)).length =
      (jobs.filter Option.isSome).length := by
  unfold helpersOf
  rw [List.filter_map, List.length_map]
  show ((List.enumFrom 0 jobs).filter (fun pr => (pr.2).isSome)).length = _
  exact enumFrom_filter_snd_length Option.isSome jobs 0

/-- C3 (amended): the number of distinct generation indices among the emitted
bins is at most the number of non-skipped jobs; the spec's ceiling bound
⌈total demand / total machine capacity⌉ does not hold. -/
theorem C3_generation_count (accelerators : List (String × Int))
    (jobs : List (Option Circuit)) (bins : List Bin)
    (h : emittedBins accelerators jobs = some bins) :
    ((bins.map Bin.index).toFinset).card ≤ (jobs.filter Option.isSome).length := by
  rcases emittedBins_inv accelerators jobs bins h with ⟨st, hpack, hbins, hOK⟩
  by_cases hP : (jobs.filter Option.isSome).length = 0
  · have hnil : jobs.filter Option.isSome = [] := List.length_eq_zero.mp hP
    have hskip : ∀ h2 ∈ helpersOf jobs, h2.inst = none := by
      intro h2 hh2
      have hmem : h2.inst ∈ jobs := by
        rw [← helpersOf_insts jobs]
        exact List.mem_map_of_mem JobHelper.inst hh2
      cases hi : h2.inst with
      | none => rfl
      | some c =>
        exfalso
        rw [hi] at hmem
        have hin : some c ∈ jobs.filter Option.isSome := by
          rw [List.mem_filter]
          exact ⟨hmem, rfl⟩
        rw [hnil] at hin
        cases hin
    have hinit : pack accelerators jobs = some (initState accelerators) :=
      packJobs_all_skipped accelerators (helpersOf jobs) (initState accelerators) hskip
    rw [hinit] at hpack
    have hst : initState accelerators = st := by
      cases hpack
      rfl
    rw [← hst, closeRemaining_init] at hbins
    rw [hbins]
    simp [sortBinsByIndex]
  · have hbound := pack_index_le_placed accelerators (helpersOf jobs) st hpack
    rw [helpersOf_placed_length] at hbound
    have hmax : max 1 ((jobs.filter Option.isSome).length) =
        (jobs.filter Option.isSome).length := Nat.max_eq_right (by omega)
    rw [hmax] at hbound
    have hlt : ∀ b ∈ bins, b.index < st.index := by
      intro b hb
      rw [hbins] at hb
      have hb2 : b ∈ closeRemaining st :=
        (sortBinsByIndex_perm (closeRemaining st)).mem_iff.mp hb
      unfold closeRemaining at hb2
      rw [List.mem_append] at hb2
      rcases hb2 with hb2 | hb2
      · exact hOK.2.2.2.1 b hb2
      · exact hOK.2.2.1 b (List.mem_filter.mp hb2).1
    have hsub : (bins.map Bin.index).toFinset ⊆ Finset.range st.index := by
      intro g hg
      rw [List.mem_toFinset] at hg
      rcases List.mem_map.mp hg with ⟨b, hb, rfl⟩
      rw [Finset.mem_range]
      exact hlt b hb
    calc ((bins.map Bin.index).toFinset).card
        ≤ (Finset.range st.index).card := Finset.card_le_card hsub
      _ = st.index := Finset.card_range st.index
      _ ≤ (jobs.filter Option.isSome).length := hbound

/-- Witness for the amended C3: one machine of capacity 4, one 3-qubit job —
one distinct generation, one placed job. -/
theorem C3_generation_count_witness :
    ((([⟨0, 1, 0, [⟨"1", some ⟨3⟩⟩], false⟩] : List Bin).map Bin.index).toFinset).card ≤
      ([some (⟨3⟩ : Circuit)].filter Option.isSome).length :=
  C3_generation_count [("m", 4)] [some ⟨3⟩] [⟨0, 1, 0, [⟨"1", some ⟨3⟩⟩], false⟩]
    (by decide)

/-- C3 fails as stated: one machine of capacity 10 with jobs of 6, 5 and 6
qubits uses three distinct generations, while the ceiling of total demand 17
over total capacity 10 is 2. -/
theorem C3_counterexample :
    (emittedBins [("m", 10)] [some ⟨6⟩, some ⟨5⟩, some ⟨6⟩]).map
      (fun bins => ((bins.map Bin.index).toFinset).card) = some 3 ∧
    ((([some (⟨6⟩ : Circuit), some ⟨5⟩, some ⟨6⟩].filterMap id).map
        Circuit.num_qubits).sum +
      (([("m", (10 : Int))].map Prod.snd).sum.toNat) - 1) /
      (([("m", (10 : Int))].map Prod.snd).sum.toNat) = 2 ∧
    ¬ ((3 : Nat) ≤ 2) := by
  refine ⟨by decide, by decide, by decide⟩

/-! C10: entries without a circuit instance are skipped. -/

theorem foldlM_filter_skip (accelerators : List (String × Int)) :
    ∀ (hs : List JobHelper) (st : PackState),
      List.foldlM (packStep accelerators) st hs =
        List.foldlM (packStep accelerators) st
          (hs.filter (fun h => h.inst.isSome)) := by
  intro hs
  induction hs with
  | nil => intro st; rfl
  | cons h rest ih =>
    intro st
    by_cases hsome : h.inst.isSome
    · rw [List.filter_cons, if_pos hsome, List.foldlM_cons, List.foldlM_cons]
      cases hstep : packStep accelerators st h with
      | none => rfl
      | some st1 =>
        show List.foldlM (packStep accelerators) st1 rest = _
        exact ih st1
    · rw [List.filter_cons, if_neg hsome, List.foldlM_cons]
      have hstep : packStep accelerators st h = some st := by
        unfold packStep
        rw [if_pos (by simpa using hsome)]
      rw [hstep]
      show List.foldlM (packStep accelerators) st rest = _
      exact ih st

/-- C10: every job-list entry that is `None` (more precisely, whose circuit
instance is `None` after wrapping) is silently skipped: the run is identical —
same bins, same failure behaviour, hence no record — to the run over only the
kept entries, while the skipped entries still consume their generated
identifier index (the kept helpers keep their original names). -/
theorem C10_skipped_entries (accelerators : List (String × Int))
    (jobs : List (Option Circuit)) :
    pack accelerators jobs =
      packJobs accelerators ((helpersOf jobs).filter (fun h => h.inst.isSome)) ∧
    emittedBins accelerators jobs =
      (packJobs accelerators ((helpersOf jobs).filter (fun h => h.inst.isSome))).map
        (fun st => sortBinsByIndex (closeRemaining st)) := by
  have hmain : pack accelerators jobs =
      packJobs accelerators ((helpersOf jobs).filter (fun h => h.inst.isSome)) :=
    foldlM_filter_skip accelerators (helpersOf jobs) (initState accelerators)
  refine ⟨hmain, ?_⟩
  unfold emittedBins
  rw [hmain]

/-! C5: every placed job lands in exactly one bin. -/

theorem binsJobs_nil : binsJobs [] = [] := rfl

theorem binsJobs_cons (b : Bin) (l : List Bin) :
    binsJobs (b :: l) = b.jobs ++ binsJobs l := rfl

theorem binsJobs_append : ∀ l1 l2 : List Bin,
    binsJobs (l1 ++ l2) = binsJobs l1 ++ binsJobs l2 := by
  intro l1
  induction l1 with
  | nil => intro l2; rfl
  | cons b bs ih =>
    intro l2
    rw [List.cons_append, binsJobs_cons, binsJobs_cons, ih, List.append_assoc]

theorem perm_binsJobs {l1 l2 : List Bin} (h : List.Perm l1 l2) :
    List.Perm (binsJobs l1) (binsJobs l2) := by
  induction h with
  | nil => exact List.Perm.refl _
  | cons x _ ih =>
    rw [binsJobs_cons, binsJobs_cons]
    exact ih.append_left x.jobs
  | swap x y l =>
    rw [binsJobs_cons, binsJobs_cons, binsJobs_cons, binsJobs_cons,
      ← List.append_assoc, ← List.append_assoc]
    exact (List.perm_append_comm).append_right (binsJobs l)
  | trans _ _ ih1 ih2 => exact ih1.trans ih2

theorem binsJobs_eq_nil_of_all_empty :
    ∀ l : List Bin, (∀ b ∈ l, b.jobs = []) → binsJobs l = [] := by
  intro l
  induction l with
  | nil => intro _; rfl
  | cons b bs ih =>
    intro hall
    rw [binsJobs_cons, hall b (List.mem_cons_self b bs), List.nil_append]
    exact ih (fun b2 hb2 => hall b2 (List.mem_cons_of_mem b hb2))

theorem placeJob_jobs_perm (job : JobHelper) (closed obins : List Bin)
    (idx newIndex : Nat) (hidx : idx < obins.length) :
    List.Perm
      (binsJobs (placeJob job closed obins idx newIndex).open_bins ++
        binsJobs (placeJob job closed obins idx newIndex).closed_bins)
      ((binsJobs obins ++ binsJobs closed) ++ [job]) := by
  rcases list_split_at default obins idx hidx with ⟨l1, b, l2, heq, hlen, hget, hset, herase⟩
  simp only [placeJob, hget, herase, hset]
  by_cases hzero : b.capacity - (jobQubits job : Int) = 0
  · rw [if_pos hzero]
    dsimp only
    rw [heq, binsJobs_append, binsJobs_append, binsJobs_cons, binsJobs_append,
      binsJobs_cons, binsJobs_nil]
    rw [List.perm_iff_count]
    intro x
    simp only [List.count_append, List.append_nil]
    omega
  · rw [if_neg hzero]
    dsimp only
    rw [heq, binsJobs_append, binsJobs_append, binsJobs_cons, binsJobs_cons]
    rw [List.perm_iff_count]
    intro x
    simp only [List.count_append]
    omega

theorem packStep_jobs_perm (accelerators : List (String × Int)) (st : PackState)
    (job : JobHelper) (st2 : PackState) (hsome : job.inst.isSome)
    (h : packStep accelerators st job = some st2) :
    List.Perm (binsJobs st2.open_bins ++ binsJobs st2.closed_bins)
      ((binsJobs st.open_bins ++ binsJobs st.closed_bins) ++ [job]) := by
  unfold packStep at h
  have hnone : job.inst.isNone = false := by
    cases hj : job.inst
    · rw [hj] at hsome
      simp at hsome
    · simp [hj]
  rw [if_neg (by simp [hnone])] at h
  cases hfind : find_fitting_bin job st.open_bins with
  | some bin_idx =>
    simp only [hfind] at h
    cases h
    exact placeJob_jobs_perm job st.closed_bins st.open_bins bin_idx st.index
      (ffb_some_spec job st.open_bins bin_idx hfind).1
  | none =>
    simp only [hfind] at h
    cases hfresh : find_fitting_bin job (freshBins accelerators st.index) with
    | none =>
      simp only [hfresh] at h
      exact Option.noConfusion h
    | some i =>
      simp only [hfresh] at h
      cases h
      have hlen : i + st.open_bins.length <
          (st.open_bins ++ freshBins accelerators st.index).length := by
        have := (ffb_some_spec job (freshBins accelerators st.index) i hfresh).1
        simp only [List.length_append]
        omega
      have hperm := placeJob_jobs_perm job st.closed_bins
        (st.open_bins ++ freshBins accelerators st.index)
        (i + st.open_bins.length) (st.index + 1) hlen
      have hfreshjobs : binsJobs (freshBins accelerators st.index) = [] :=
        binsJobs_eq_nil_of_all_empty (freshBins accelerators st.index)
          (fun b hb => (freshBins_mem accelerators st.index b hb).2.1)
      rw [binsJobs_append, hfreshjobs, List.append_nil] at hperm
      exact hperm

theorem packFold_jobs_perm (accelerators : List (String × Int)) :
    ∀ (hs : List JobHelper) (st st2 : PackState),
      List.foldlM (packStep accelerators) st hs = some st2 →
      List.Perm (binsJobs st2.open_bins ++ binsJobs st2.closed_bins)
        ((binsJobs st.open_bins ++ binsJobs st.closed_bins) ++
          hs.filter (fun h => h.inst.isSome)) := by
  intro hs
  induction hs with
  | nil =>
    intro st st2 h
    simp at h
    cases h
    simp
  | cons h rest ih =>
    intro st st2 hfold
    rw [List.foldlM_cons] at hfold
    rcases Option.bind_eq_some.mp hfold with ⟨st1, h1, h2⟩
    by_cases hsome : h.inst.isSome
    · have hstep := packStep_jobs_perm accelerators st h st1 hsome h1
      have hrest := ih st1 st2 h2
      rw [List.filter_cons, if_pos hsome]
      refine hrest.trans ?_
      have := hstep.append_right (rest.filter (fun h => h.inst.isSome))
      refine this.trans ?_
      rw [List.append_assoc]
      exact List.Perm.refl _
    · have heq : st1 = st :=
        (packStep_index_le accelerators st h st1 h1).2 (by simpa using hsome)
      rw [heq] at h2
      rw [List.filter_cons, if_neg hsome]
      exact ih st st2 h2

theorem closeRemaining_jobs (st : PackState) :
    binsJobs (closeRemaining st) =
      binsJobs st.closed_bins ++
        binsJobs (st.open_bins.filter (fun b => decide (0 < b.jobs.length))) := by
  unfold closeRemaining
  exact binsJobs_append st.closed_bins
    (st.open_bins.filter (fun b => decide (0 < b.jobs.length)))

theorem binsJobs_filter_nonempty : ∀ l : List Bin,
    binsJobs (l.filter (fun b => decide (0 < b.jobs.length))) = binsJobs l := by
  intro l
  induction l with
  | nil => rfl
  | cons b bs ih =>
    rw [List.filter_cons, binsJobs_cons]
    by_cases hb : 0 < b.jobs.length
    · rw [if_pos (by simpa using hb), binsJobs_cons, ih]
    · have hnil : b.jobs = [] := by
        cases hj : b.jobs
        · rfl
        · rw [hj] at hb; simp at hb
      rw [if_neg (by simpa using hb), ih, hnil, List.nil_append]

theorem initState_jobs (accelerators : List (String × Int)) :
    binsJobs (initState accelerators).open_bins ++
      binsJobs (initState accelerators).closed_bins = [] := by
  show binsJobs (freshBins accelerators 0) ++ binsJobs [] = []
  rw [binsJobs_nil, List.append_nil]
  exact binsJobs_eq_nil_of_all_empty (freshBins accelerators 0)
    (fun b hb => (freshBins_mem accelerators 0 b hb).2.1)

theorem pack_jobs_perm (accelerators : List (String × Int))
    (jobs : List (Option Circuit)) (st : PackState)
    (h : pack accelerators jobs = some st) :
    List.Perm (binsJobs (closeRemaining st))
      ((helpersOf jobs).filter (fun h => h.inst.isSome)) := by
  have hfold := packFold_jobs_perm accelerators (helpersOf jobs)
    (initState accelerators) st h
  rw [initState_jobs, List.nil_append] at hfold
  refine List.Perm.trans ?_ hfold
  rw [closeRemaining_jobs, binsJobs_filter_nonempty]
  exact List.perm_append_comm

theorem combinedJobsOf_names (accelerators : List (String × Int)) :
    ∀ bins : List Bin,
      (combinedJobsOf accelerators bins).map (fun r => r.name) =
        (binsJobs bins).map (fun j => j.name) := by
  intro bins
  induction bins with
  | nil => rfl
  | cons b bs ih =>
    have hcons : combinedJobsOf accelerators (b :: bs) =
        b.jobs.map (fun job =>
          (⟨job.name, (accelerators.map Prod.fst).getD b.qpu "", b.index, -1⟩ :
            JobResultInfo)) ++ combinedJobsOf accelerators bs := rfl
    rw [hcons, List.map_append, List.map_map, binsJobs_cons, List.map_append, ih]
    rfl

/-- C5 (amended): the multiset of job identifiers across the returned scheduled
job records equals exactly the identifiers of the non-skipped input entries —
no duplication, no omission among placed jobs.  Identifiers of skipped (`None`)
entries are consumed but do not appear. -/
theorem C5_coverage (accelerators : List (String × Int))
    (jobs : List (Option Circuit)) (process_times : List (List ℚ))
    (setup_times : List (List (List ℚ))) (recs : List JobResultInfo)
    (h : (generate_baseline_schedule jobs accelerators process_times setup_times).map
      Prod.snd = some recs) :
    List.Perm (recs.map (fun r => r.name))
      (((helpersOf jobs).filter (fun h2 => h2.inst.isSome)).map
        (fun h2 => h2.name)) := by
  unfold generate_baseline_schedule at h
  rw [Option.map_map] at h
  rcases Option.map_eq_some'.mp h with ⟨bins, hbins, hrecs⟩
  have hrecs2 : recs = combinedJobsOf accelerators bins := by
    rw [← hrecs]
    rfl
  subst hrecs2
  rw [combinedJobsOf_names]
  apply List.Perm.map
  rcases emittedBins_inv accelerators jobs bins hbins with ⟨st, hpack, hbinseq, _⟩
  rw [hbinseq]
  refine (perm_binsJobs (sortBinsByIndex_perm (closeRemaining st))).trans ?_
  exact pack_jobs_perm accelerators jobs st hpack

/-- Witness for the amended C5: one machine, one 2-qubit job. -/
theorem C5_coverage_witness :
    List.Perm (([⟨"1", "m", 0, -1⟩] : List JobResultInfo).map (fun r => r.name))
      (((helpersOf [some ⟨2⟩]).filter (fun h2 => h2.inst.isSome)).map
        (fun h2 => h2.name)) :=
  C5_coverage [("m", 4)] [some ⟨2⟩] [] [] [⟨"1", "m", 0, -1⟩] (by rfl)

/-- C5 fails as stated: with a skipped (`None`) second entry, the output records
carry only identifier "1" while the input entries consumed identifiers "1" and
"2", so the output multiset differs from the input identifier set. -/
theorem C5_counterexample :
    (generate_baseline_schedule [some ⟨2⟩, none] [("m", 4)] [] []).map
      (fun r => r.2.map (fun j => j.name)) = some ["1"] ∧
    (helpersOf [some ⟨2⟩, none]).map (fun h2 => h2.name) = ["1", "2"] ∧
    ¬ List.Perm ["1"] ["1", "2"] := by
  refine ⟨by rfl, by rfl, fun hperm => by simpa using hperm.length_eq⟩

/-! C9: missing cost entries default to zero. -/

/-- C9: a (job, machine) position the supplied process-time array does not
cover, and a (predecessor, successor, machine) position the supplied setup-time
array does not cover, are looked up as cost 0 (the default passed to
`makeDict`); likewise keys outside the header lists; and the makespan
evaluation never turns a successful packing into a failure. -/
theorem C9_missing_cost_defaults :
    (∀ (rows cols : List String) (array : List (List ℚ)) (r c : String)
      (i j : Nat), rows.indexOf? r = some i → cols.indexOf? c = some j →
      (array.length ≤ i ∨ (array.getD i []).length ≤ j) →
      makeDict2 rows cols array 0 r c = 0) ∧
    (∀ (rows1 rows2 cols : List String) (array : List (List (List ℚ)))
      (a b c : String) (i j k : Nat),
      rows1.indexOf? a = some i → rows2.indexOf? b = some j →
      cols.indexOf? c = some k →
      (array.length ≤ i ∨ (array.getD i []).length ≤ j ∨
        ((array.getD i []).getD j []).length ≤ k) →
      makeDict3 rows1 rows2 cols array 0 a b c = 0) ∧
    (∀ (rows cols : List String) (array : List (List ℚ)) (r c : String),
      rows.indexOf? r = none ∨ cols.indexOf? c = none →
      makeDict2 rows cols array 0 r c = 0) ∧
    (∀ (jobs : List (Option Circuit)) (accelerators : List (String × Int))
      (process_times : List (List ℚ)) (setup_times : List (List (List ℚ))),
      (generate_baseline_schedule jobs accelerators process_times
        setup_times).isSome = (emittedBins accelerators jobs).isSome) := by
  refine ⟨?_, ?_, ?_, ?_⟩
  · intro rows cols array r c i j hi hj habs
    unfold makeDict2
    rw [hi, hj]
    show (array.getD i []).getD j (0 : ℚ) = 0
    rcases habs with habs | habs
    · rw [array.getD_eq_default [] habs]
      rfl
    · exact (array.getD i []).getD_eq_default 0 habs
  · intro rows1 rows2 cols array a b c i j k hi hj hk habs
    unfold makeDict3
    rw [hi, hj, hk]
    show ((array.getD i []).getD j []).getD k (0 : ℚ) = 0
    rcases habs with habs | habs | habs
    · rw [array.getD_eq_default [] habs]
      rfl
    · rw [(array.getD i []).getD_eq_default [] habs]
      rfl
    · exact ((array.getD i []).getD j []).getD_eq_default 0 habs
  · intro rows cols array r c habs
    unfold makeDict2
    rcases habs with habs | habs
    · rw [habs]
    · rw [habs]
      cases rows.indexOf? r <;> rfl
  · intro jobs accelerators process_times setup_times
    unfold generate_baseline_schedule
    cases emittedBins accelerators jobs <;> rfl

/-- Witness for C9: a job name and machine present in the headers but absent
from the (empty) supplied arrays are charged cost 0. -/
theorem C9_missing_cost_defaults_witness :
    makeDict2 ["1"] ["m"] [] 0 "1" "m" = 0 ∧
    makeDict3 ["0", "1"] ["0", "1"] ["m"] [] 0 "0" "1" "m" = 0 :=
  ⟨C9_missing_cost_defaults.1 ["1"] ["m"] [] "1" "m" 0 0 (by decide) (by decide)
      (Or.inl (by decide)),
   C9_missing_cost_defaults.2.1 ["0", "1"] ["0", "1"] ["m"] [] "0" "1" "m" 0 1 0
      (by decide) (by decide) (by decide) (Or.inl (by decide))⟩
